import Mathlib

/-!
Verification development for the gcs-sync repository.

The definitions below are shallow embeddings of the Go source:
  * `internal/ignore`  : glob-to-regex compilation and matching (Compile, Match, globToRegex)
  * `internal/util`    : tilde expansion (Expand)
  * `internal/watcher` : rule runner event handling, debounce, poll ticker, StartAll
  * `internal/gsutil`  : the RSync invocation record
  * `internal/logging` : logger level initialization
  * `internal/config`  : SyncRule data model

Paths and pattern strings are modeled as `List Char` (Go strings on a
Unix host, where the path separator is a forward slash).  Durations are
modeled as `Nat`.
-/

/-- The set of characters escaped by Go's `regexp.QuoteMeta`
(its `specialBytes`: the fourteen regex metacharacters). -/
def isSpecial (c : Char) : Bool :=
  c = '\\' || c = '.' || c = '+' || c = '*' || c = '?' || c = '(' || c = ')' ||
  c = '|' || c = '[' || c = ']' || c = '{' || c = '}' || c = '^' || c = '$'

/-- The chunk `regexp.QuoteMeta` produces for one character: metacharacters
are preceded by a backslash, all other characters pass through. -/
def qmChunk (c : Char) : List Char :=
  if isSpecial c then ['\\', c] else [c]

/-- Models `regexp.QuoteMeta`: escape every regex metacharacter. -/
def quoteMeta : List Char → List Char
  | [] => []
  | c :: g => qmChunk c ++ quoteMeta g

/-- Models `strings.ReplaceAll(s, "\\*\\*", ".*")`: left-to-right
non-overlapping replacement of the four-character sequence. -/
def replSS : List Char → List Char
  | '\\' :: '*' :: '\\' :: '*' :: rest => '.' :: '*' :: replSS rest
  | c :: rest => c :: replSS rest
  | [] => []

/-- Models `strings.ReplaceAll(s, "\\*", "[^/]*")`. -/
def replS : List Char → List Char
  | '\\' :: '*' :: rest => '[' :: '^' :: '/' :: ']' :: '*' :: replS rest
  | c :: rest => c :: replS rest
  | [] => []

/-- Models `strings.ReplaceAll(s, "\\?", ".")`. -/
def replQ : List Char → List Char
  | '\\' :: '?' :: rest => '.' :: replQ rest
  | c :: rest => c :: replQ rest
  | [] => []

/-- Models `ignore.globToRegex`: quote all metacharacters, then substitute
`\*\*` by `.*`, `\*` by `[^/]*`, `\?` by `.`, and anchor the result. -/
def globToRegex (g : List Char) : List Char :=
  '^' :: replQ (replS (replSS (quoteMeta g))) ++ ['$']

/-- A token of the regular-expression sublanguage produced by
`globToRegex`: a literal character, `.` (any one character), `.*`
(any characters, including the separator), or `[^/]*` (any characters
except the separator). -/
inductive RTok where
  | lit (c : Char)
  | dot
  | dotStar
  | nonSlashStar
deriving DecidableEq

/-- Models the parsing phase of Go's `regexp.Compile` on the sublanguage
generated by `globToRegex` (anchors already stripped).  Constructs that
this sublanguage never produces, such as a bare quantifier or an
unterminated character class (which `regexp.Compile` rejects), yield
`none`. -/
def parseBody : List Char → Option (List RTok)
  | [] => some []
  | [c] =>
      if c = '.' then some [RTok.dot]
      else if isSpecial c then none
      else some [RTok.lit c]
  | c1 :: c2 :: rest =>
      if c1 = '\\' then (parseBody rest).map (fun ts => RTok.lit c2 :: ts)
      else if c1 = '.' ∧ c2 = '*' then (parseBody rest).map (fun ts => RTok.dotStar :: ts)
      else if c1 = '[' then
        match rest with
        | [] => none
        | [_] => none
        | [_, _] => none
        | r1 :: r2 :: r3 :: rest2 =>
            if c2 = '^' ∧ r1 = '/' ∧ r2 = ']' ∧ r3 = '*' then
              (parseBody rest2).map (fun ts => RTok.nonSlashStar :: ts)
            else none
      else if c1 = '.' then (parseBody (c2 :: rest)).map (fun ts => RTok.dot :: ts)
      else if isSpecial c1 then none
      else (parseBody (c2 :: rest)).map (fun ts => RTok.lit c1 :: ts)

/-- Strips the `^ ... $` anchors that `globToRegex` adds; the remaining
body is matched against the entire relative path. -/
def stripAnchors : List Char → Option (List Char)
  | '^' :: rest => if rest.getLast? = some '$' then some rest.dropLast else none
  | _ => none

/-- Backtracking matcher for the regex sublanguage against an entire
string (the anchors of `globToRegex` make every match a full match,
which is how `Regexp.MatchString` behaves on those patterns).  The
explicit fuel bounds the recursion; every step consumes a token or a
character, so `tokens + chars + 1` is always sufficient. -/
def reMatchFuel : Nat → List RTok → List Char → Bool
  | _, [], [] => true
  | 0, _, _ => false
  | _ + 1, [], _ :: _ => false
  | f + 1, RTok.lit c :: ts, s =>
      match s with
      | [] => false
      | x :: xs => x = c && reMatchFuel f ts xs
  | f + 1, RTok.dot :: ts, s =>
      match s with
      | [] => false
      | _ :: xs => reMatchFuel f ts xs
  | f + 1, RTok.dotStar :: ts, s =>
      reMatchFuel f ts s ||
        (match s with
         | [] => false
         | _ :: xs => reMatchFuel f (RTok.dotStar :: ts) xs)
  | f + 1, RTok.nonSlashStar :: ts, s =>
      reMatchFuel f ts s ||
        (match s with
         | [] => false
         | x :: xs => !(x = '/' : Bool) && reMatchFuel f (RTok.nonSlashStar :: ts) xs)

/-- Full-string match of a compiled pattern against a relative path. -/
def reMatch (ts : List RTok) (s : List Char) : Bool :=
  reMatchFuel (ts.length + s.length + 1) ts s

/-- Models the element-copying step of Go `filepath.Clean`: copy
characters into the (reversed) output buffer until a separator or the
end of the path.  Returns the new buffer and the remaining input. -/
def copyElem : List Char → List Char → List Char × List Char
  | [], out => (out, [])
  | c :: rest, out => if c = '/' then (out, c :: rest) else copyElem rest (c :: out)

/-- Models the backtracking step of Go `filepath.Clean` on a `..`
element: working on the reversed output buffer, drop the last path
element (the loop `out.w--` until `out.w` reaches `dotdot` or a
separator). -/
def popSegRev (dd : Nat) : List Char → List Char
  | [] => []
  | c :: rest => if dd < rest.length && !(c = '/' : Bool) then popSegRev dd rest else rest

/-- The main loop of Go `filepath.Clean` (forward-slash separator, as on
the Linux host the program targets).  `out` is the reversed output
buffer, `dd` the `dotdot` barrier.  The fuel dominates the number of
remaining input characters, each iteration consuming at least one. -/
def cleanLoop (rooted : Bool) : Nat → List Char → List Char → Nat → List Char
  | _, [], out, _ => out
  | 0, _, out, _ => out
  | fuel + 1, c :: rest, out, dd =>
    if c = '/' then cleanLoop rooted fuel rest out dd
    else if c = '.' && (rest.isEmpty || rest.head? == some '/') then
      cleanLoop rooted fuel rest out dd
    else if c = '.' && rest.head? == some '.' &&
            (rest.tail.isEmpty || rest.tail.head? == some '/') then
      if dd < out.length then cleanLoop rooted fuel rest.tail (popSegRev dd out) dd
      else if !rooted then
        let out2 := if 0 < out.length then '.' :: '.' :: '/' :: out else ['.', '.']
        cleanLoop rooted fuel rest.tail out2 out2.length
      else cleanLoop rooted fuel rest.tail out dd
    else
      let out2 := if (rooted && out.length ≠ 1) || (!rooted && out.length ≠ 0)
                  then '/' :: out else out
      let pr := copyElem (c :: rest) out2
      cleanLoop rooted fuel pr.2 pr.1 dd

/-- Models Go `filepath.Clean` for forward-slash paths (the behavior of
`filepath.Clean` on the Linux host; `filepath.ToSlash` and `FromSlash`
are the identity there). -/
def cleanSlash (path : List Char) : List Char :=
  if path.isEmpty then ['.']
  else
    let rooted := path.head? == some '/'
    let p := if rooted then path.tail else path
    let out0 : List Char := if rooted then ['/'] else []
    let dd0 := if rooted then 1 else 0
    let outF := cleanLoop rooted (p.length + 1) p out0 dd0
    if outF.isEmpty then ['.'] else outF.reverse

/-- Models `ignore.Compile` for one pattern: clean the glob, translate
it with `globToRegex`, and compile the resulting regular expression
(`regexp.Compile`, modeled by `stripAnchors` plus `parseBody`). -/
def compileOne (g : String) : Except String (List RTok) :=
  let p := cleanSlash g.toList
  match stripAnchors (globToRegex p) with
  | none => Except.error "error parsing regexp"
  | some body =>
      match parseBody body with
      | none => Except.error "error parsing regexp"
      | some re => Except.ok re

/-- Models `ignore.Compile`: compile each pattern in order, returning
the first error if any pattern fails to compile.  The `root` argument
mirrors the Go signature; it is unused there as well. -/
def Compile (root : List Char) (patterns : List String) : Except String (List (List RTok)) :=
  match patterns with
  | [] => Except.ok []
  | g :: gs =>
      match compileOne g with
      | Except.error e => Except.error e
      | Except.ok re =>
          match Compile root gs with
          | Except.error e => Except.error e
          | Except.ok res => Except.ok (re :: res)

/-- Models `ignore.Match`: a relative path is ignored iff any compiled
pattern matches it. -/
def Match (rel : List Char) (regexes : List (List RTok)) : Bool :=
  regexes.any fun re => reMatch re rel

/-- Compile a single glob and match it against a relative path (the
round trip `Match (Compile ...)` used by the testable properties). -/
def matchGlob (g rel : String) : Bool :=
  match Compile [] [g] with
  | Except.ok res => Match rel.toList res
  | Except.error _ => false

/-- Models Go `filepath.Join` on two elements: empty elements are
skipped, the rest are joined with a separator and cleaned. -/
def goJoin2 (a b : List Char) : List Char :=
  if a.isEmpty && b.isEmpty then []
  else if a.isEmpty then cleanSlash b
  else if b.isEmpty then cleanSlash a
  else cleanSlash (a ++ '/' :: b)

/-- Models `util.Expand`: a path starting with a tilde has the tilde
replaced by the current user's home directory (via `filepath.Join`);
any other path is returned unchanged. -/
def Expand (home : List Char) (path : List Char) : List Char :=
  if path.head? == some '~' then goJoin2 home path.tail else path

/-- Models `config.SyncDirection` with its three YAML values. -/
inductive SyncDirection where
  | full
  | localToRemote
  | remoteToLocal
deriving DecidableEq

/-- Models `config.SyncRule`, the per-rule configuration record.
Durations are `Nat` (Go `time.Duration` ticks); fields absent from the
YAML are left at their Go zero value by `yaml.Unmarshal`. -/
structure SyncRule where
  src : String
  dst : String
  directions : List SyncDirection
  ignore : List String
  enabled : Bool
  debounceWindow : Nat
  remotePollWindow : Nat
deriving DecidableEq

/-- The Go zero value of `config.SyncRule`: what `yaml.Unmarshal`
produces for every field missing from the YAML document. -/
def defaultSyncRule : SyncRule :=
  { src := "", dst := "", directions := [], ignore := [], enabled := false,
    debounceWindow := 0, remotePollWindow := 0 }

/-- Models `watcher.ruleRunner`: the rule, its expanded source root and
its compiled ignore set. -/
structure RuleRunner where
  rule : SyncRule
  srcRoot : List Char
  ign : List (List RTok)
deriving DecidableEq

/-- Models `watcher.newRuleRunner`: expand the source path, compile the
ignore patterns, fail with the compilation error if any. -/
def newRuleRunner (home : List Char) (r : SyncRule) : Except String RuleRunner :=
  match Compile (Expand home r.src.toList) r.ignore with
  | Except.error e => Except.error e
  | Except.ok ign =>
      Except.ok { rule := r, srcRoot := Expand home r.src.toList, ign := ign }

/-- Models one invocation of `gsutil.RSync`: the argument record handed
to the transfer tool (source, destination, deletion flag, compiled
ignore set). -/
structure RSyncCall where
  src : List Char
  dst : String
  deleteRemote : Bool
  ignoreRegex : List (List RTok)
deriving DecidableEq

/-- Models `gsutil.RSync` at the call boundary: the invocation record it
receives (the subprocess execution itself is outside the embedding). -/
def RSync (src : List Char) (dst : String) (deleteRemote : Bool)
    (ignoreRegex : List (List RTok)) : RSyncCall :=
  { src := src, dst := dst, deleteRemote := deleteRemote, ignoreRegex := ignoreRegex }

/-- Models `ruleRunner.syncOnce`: every trigger reason leads to the same
single `gsutil.RSync(srcRoot, rule.Dst, true, ign)` invocation; the
reason string is only logged. -/
def syncOnce (rr : RuleRunner) (reason : String) : RSyncCall :=
  RSync rr.srcRoot rr.rule.dst true rr.ign

/-- Models `watcher.containsDir`: linear scan of the directions slice. -/
def containsDir : List SyncDirection → SyncDirection → Bool
  | [], _ => false
  | d :: rest, v => if d = v then true else containsDir rest v

/-- Models the poll-ticker setup in `ruleRunner.run`: a ticker at the
rule's remote-poll window exists iff the directions contain
`remote_to_local` or `full`. -/
def pollTicker (r : SyncRule) : Option Nat :=
  if containsDir r.directions SyncDirection.remoteToLocal ||
     containsDir r.directions SyncDirection.full
  then some r.remotePollWindow else none

/-- Models the `resetDebounce` closure in `ruleRunner.run`: with no
timer pending, `time.AfterFunc` arms one due a full window from now;
with a timer pending, `timer.Reset` moves the same timer's deadline to a
full window from now.  The state is a single optional deadline — the
structure itself enforces that at most one timer instance exists. -/
def resetDebounce (w now : Nat) : Option Nat → Option Nat
  | none => some (now + w)
  | some _ => some (now + w)

/-- Executes a burst of event arrivals (given by their times, in order)
against the debounce state machine of `ruleRunner.run`.  A pending
deadline that has passed when the next event arrives fires first,
producing one `syncOnce("debounce")` invocation; the event then arms or
extends the single timer via `resetDebounce`.  After the last event the
pending timer fires.  Returns the fired invocations as
(reason, time) pairs. -/
def runBurst (w : Nat) : Option Nat → List Nat → List (String × Nat)
  | pending, [] =>
      match pending with
      | none => []
      | some d => [("debounce", d)]
  | pending, t :: ts =>
      match pending with
      | none => runBurst w (resetDebounce w t none) ts
      | some d =>
          if d ≤ t then ("debounce", d) :: runBurst w (resetDebounce w t (some d)) ts
          else runBurst w (resetDebounce w t (some d)) ts

/-- Models the `OnStart` loop of `watcher.StartAll` with the runner
constructor abstracted: disabled rules are skipped, each enabled rule is
constructed in order, and the first construction error aborts the whole
startup with that error. -/
def startAllWith (mk : SyncRule → Except String RuleRunner) :
    List SyncRule → Except String (List RuleRunner)
  | [] => Except.ok []
  | r :: rest =>
      if r.enabled then
        match mk r with
        | Except.error e => Except.error e
        | Except.ok rr =>
            match startAllWith mk rest with
            | Except.error e => Except.error e
            | Except.ok l => Except.ok (rr :: l)
      else startAllWith mk rest

/-- Models `watcher.StartAll`: the `OnStart` loop with the real
`newRuleRunner` constructor. -/
def StartAll (home : List Char) (rules : List SyncRule) :
    Except String (List RuleRunner) :=
  startAllWith (newRuleRunner home) rules

/-- Models `logrus.Level` (the seven logrus severity levels). -/
inductive LogLevel where
  | panic
  | fatal
  | error
  | warn
  | info
  | debug
  | trace
deriving DecidableEq

/-- Models Go `strings.ToLower` (per-rune Unicode simple lowercasing)
for every comparison the program performs with the result.  ASCII
uppercase letters lower via `Char.toLower`, and the only two code points
outside ASCII whose Unicode simple lowercase mapping lands in ASCII are
handled explicitly: U+0130 (LATIN CAPITAL LETTER I WITH DOT ABOVE)
lowers to `i` and U+212A (KELVIN SIGN) lowers to `k`.  Every other
character is left unchanged here, whereas Go also lowers non-ASCII
letters within the non-ASCII range; since the lowered string is only
ever compared for equality against the all-ASCII level names, that
difference never changes a comparison's verdict, and `loggingInit`
agrees with `logging.Init` on every input. -/
def goToLower (s : String) : String :=
  String.mk (s.toList.map fun c =>
    if c = Char.ofNat 0x0130 then 'i'
    else if c = Char.ofNat 0x212A then 'k'
    else Char.toLower c)

/-- Models `logrus.ParseLevel`'s switch on the (already lowercased)
level string; `logrus.ParseLevel` itself lowercases its argument, and
`logging.Init` passes it a string it has already lowercased, so the
switch compares the lowercased input against these literals. -/
def parseLevel (s : String) : Option LogLevel :=
  if s = "panic" then some LogLevel.panic
  else if s = "fatal" then some LogLevel.fatal
  else if s = "error" then some LogLevel.error
  else if s = "warn" then some LogLevel.warn
  else if s = "warning" then some LogLevel.warn
  else if s = "info" then some LogLevel.info
  else if s = "debug" then some LogLevel.debug
  else if s = "trace" then some LogLevel.trace
  else none

/-- Models `logging.Init`: parse the lowercased level string with
`logrus.ParseLevel`; on a parse error fall back to `logrus.InfoLevel`. -/
def loggingInit (level : String) : LogLevel :=
  match parseLevel (goToLower level) with
  | some lvl => lvl
  | none => LogLevel.info


/-! ### The single-pass characterization of `globToRegex`

The three sequential `ReplaceAll` passes of `globToRegex` are proved
equal to single left-to-right translations `t1`, `t2`, `t3` of the glob,
which is what makes the generated expression always parse: every
metacharacter is quoted before the substitutions run, so the substrings
`\*\*`, `\*`, `\?` occur only at quoted-chunk boundaries. -/

/-- `quoteMeta` followed by the `\*\*` to `.*` pass, as one traversal. -/
def t1 : List Char → List Char
  | [] => []
  | [c] => qmChunk c
  | c1 :: c2 :: g =>
      if c1 = '*' ∧ c2 = '*' then '.' :: '*' :: t1 g
      else qmChunk c1 ++ t1 (c2 :: g)

/-- `t1` followed by the `\*` to `[^/]*` pass, as one traversal. -/
def t2 : List Char → List Char
  | [] => []
  | [c] => if c = '*' then ['[', '^', '/', ']', '*'] else qmChunk c
  | c1 :: c2 :: g =>
      if c1 = '*' ∧ c2 = '*' then '.' :: '*' :: t2 g
      else if c1 = '*' then '[' :: '^' :: '/' :: ']' :: '*' :: t2 (c2 :: g)
      else qmChunk c1 ++ t2 (c2 :: g)

/-- `t2` followed by the `\?` to `.` pass, as one traversal: the full
body of the regular expression `globToRegex` generates. -/
def t3 : List Char → List Char
  | [] => []
  | [c] => if c = '*' then ['[', '^', '/', ']', '*']
           else if c = '?' then ['.'] else qmChunk c
  | c1 :: c2 :: g =>
      if c1 = '*' ∧ c2 = '*' then '.' :: '*' :: t3 g
      else if c1 = '*' then '[' :: '^' :: '/' :: ']' :: '*' :: t3 (c2 :: g)
      else if c1 = '?' then '.' :: t3 (c2 :: g)
      else qmChunk c1 ++ t3 (c2 :: g)

/-- The token list the compiled regular expression of a glob denotes:
`**` compiles to `.*`, a remaining `*` to `[^/]*`, `?` to `.`, and any
other character to a literal. -/
def globTokens : List Char → List RTok
  | [] => []
  | [c] => if c = '*' then [RTok.nonSlashStar]
           else if c = '?' then [RTok.dot] else [RTok.lit c]
  | c1 :: c2 :: g =>
      if c1 = '*' ∧ c2 = '*' then RTok.dotStar :: globTokens g
      else if c1 = '*' then RTok.nonSlashStar :: globTokens (c2 :: g)
      else if c1 = '?' then RTok.dot :: globTokens (c2 :: g)
      else RTok.lit c1 :: globTokens (c2 :: g)

/-- Compile an ignore list and match a relative path against it, the
composition the testable properties quantify over (`false` on a
compilation error, which `Compile` never actually produces). -/
def matchCompiled (P : String) (root : List Char) (S : List String) : Bool :=
  match Compile root S with
  | Except.ok res => Match P.toList res
  | Except.error _ => false

/-- A rule as loaded from a YAML document that omits `debounce_window`:
every omitted field keeps its Go zero value. -/
def ruleNoDebounce : SyncRule :=
  { defaultSyncRule with
      src := "~/data", dst := "gs://bucket/data",
      directions := [SyncDirection.localToRemote], enabled := true }

/-- Enabled rule fixture. -/
def wRuleA : SyncRule := { defaultSyncRule with src := "a", enabled := true }

/-- Second enabled rule fixture. -/
def wRuleB : SyncRule := { defaultSyncRule with src := "b", enabled := true }

/-- Disabled rule fixture. -/
def wRuleC : SyncRule := { defaultSyncRule with src := "c", enabled := false }

/-- A trivial constructed runner. -/
def wRunner : RuleRunner := { rule := defaultSyncRule, srcRoot := [], ign := [] }

/-- A runner constructor that always succeeds. -/
def wMkOk : SyncRule → Except String RuleRunner := fun _ => Except.ok wRunner

/-- A runner constructor that fails on the rule with source `b`. -/
def wMkBad : SyncRule → Except String RuleRunner :=
  fun r => if r.src = "b" then Except.error "boom" else Except.ok wRunner

theorem nonspecial_facts (c : Char) (h : isSpecial c = false) :
    c ≠ '\\' ∧ c ≠ '.' ∧ c ≠ '[' ∧ c ≠ '*' ∧ c ≠ '?' := by
  refine ⟨?_, ?_, ?_, ?_, ?_⟩ <;> intro hc <;> subst hc <;> simp [isSpecial] at h

theorem qm_head_ne_star (g : List Char) (c : Char) (r : List Char)
    (h : quoteMeta g = c :: r) : c ≠ '*' := by
  match g with
  | [] => simp [quoteMeta] at h
  | a :: g2 =>
    rw [quoteMeta] at h
    unfold qmChunk at h
    by_cases ha : isSpecial a = true
    · rw [if_pos ha] at h
      injection h with h1 _
      rw [← h1]; decide
    · rw [if_neg ha] at h
      simp only [List.singleton_append] at h
      injection h with h1 _
      rw [← h1]
      exact (nonspecial_facts a (by simpa using ha)).2.2.2.1

theorem qm_ne_bsStar (g : List Char) (hg : ∀ g2, g ≠ '*' :: g2) (r : List Char) :
    quoteMeta g ≠ '\\' :: '*' :: r := by
  match g with
  | [] => simp [quoteMeta]
  | a :: g2 =>
    intro h
    rw [quoteMeta] at h
    unfold qmChunk at h
    by_cases ha : isSpecial a = true
    · rw [if_pos ha] at h
      injection h with _ h2
      injection h2 with h3 _
      rw [← h3] at hg
      exact hg g2 rfl
    · rw [if_neg ha] at h
      simp only [List.singleton_append] at h
      injection h with h1 _
      exact (nonspecial_facts a (by simpa using ha)).1 h1

theorem replSS_cons (c : Char) (X : List Char)
    (h : ¬(c = '\\' ∧ ∃ r, X = '*' :: '\\' :: '*' :: r)) :
    replSS (c :: X) = c :: replSS X := by
  rw [replSS.eq_def]
  split
  · rename_i rest heq
    exact absurd (by injection heq with h1 h2; exact ⟨h1, rest, h2⟩) h
  · rename_i c2 rest heq
    injection heq with h1 h2
    rw [h1, h2]
  · rename_i heq; exact absurd heq (by simp)

theorem replS_cons (c : Char) (X : List Char)
    (h : ¬(c = '\\' ∧ ∃ r, X = '*' :: r)) :
    replS (c :: X) = c :: replS X := by
  rw [replS.eq_def]
  split
  · rename_i rest heq
    exact absurd (by injection heq with h1 h2; exact ⟨h1, rest, h2⟩) h
  · rename_i c2 rest heq
    injection heq with h1 h2
    rw [h1, h2]
  · rename_i heq; exact absurd heq (by simp)

theorem replQ_cons (c : Char) (X : List Char)
    (h : ¬(c = '\\' ∧ ∃ r, X = '?' :: r)) :
    replQ (c :: X) = c :: replQ X := by
  rw [replQ.eq_def]
  split
  · rename_i rest heq
    exact absurd (by injection heq with h1 h2; exact ⟨h1, rest, h2⟩) h
  · rename_i c2 rest heq
    injection heq with h1 h2
    rw [h1, h2]
  · rename_i heq; exact absurd heq (by simp)

theorem qmChunk_star : qmChunk '*' = ['\\', '*'] := by decide

theorem replSS_eq1 (X : List Char) :
    replSS ('\\' :: '*' :: '\\' :: '*' :: X) = '.' :: '*' :: replSS X := by
  rw [replSS]

theorem replS_eq1 (X : List Char) :
    replS ('\\' :: '*' :: X) = '[' :: '^' :: '/' :: ']' :: '*' :: replS X := by
  rw [replS]

theorem replQ_eq1 (X : List Char) :
    replQ ('\\' :: '?' :: X) = '.' :: replQ X := by
  rw [replQ]

theorem t1_head_ne_star (g : List Char) (c : Char) (r : List Char)
    (h : t1 g = c :: r) : c ≠ '*' := by
  match g with
  | [] => simp [t1] at h
  | [a] =>
    rw [t1] at h
    unfold qmChunk at h
    by_cases ha : isSpecial a = true
    · rw [if_pos ha] at h; injection h with h1 _; rw [← h1]; decide
    · rw [if_neg ha] at h; injection h with h1 _; rw [← h1]
      exact (nonspecial_facts a (by simpa using ha)).2.2.2.1
  | a :: b :: g2 =>
    rw [t1] at h
    split at h
    · injection h with h1 _; rw [← h1]; decide
    · unfold qmChunk at h
      by_cases ha : isSpecial a = true
      · rw [if_pos ha] at h; injection h with h1 _; rw [← h1]; decide
      · rw [if_neg ha] at h
        simp only [List.singleton_append] at h
        injection h with h1 _; rw [← h1]
        exact (nonspecial_facts a (by simpa using ha)).2.2.2.1

theorem t2_head_ne_qm (g : List Char) (c : Char) (r : List Char)
    (h : t2 g = c :: r) : c ≠ '?' := by
  match g with
  | [] => simp [t2] at h
  | [a] =>
    rw [t2] at h
    split at h
    · injection h with h1 _; rw [← h1]; decide
    · unfold qmChunk at h
      by_cases ha : isSpecial a = true
      · rw [if_pos ha] at h; injection h with h1 _; rw [← h1]; decide
      · rw [if_neg ha] at h; injection h with h1 _; rw [← h1]
        exact (nonspecial_facts a (by simpa using ha)).2.2.2.2
  | a :: b :: g2 =>
    rw [t2] at h
    split at h
    · injection h with h1 _; rw [← h1]; decide
    · split at h
      · injection h with h1 _; rw [← h1]; decide
      · unfold qmChunk at h
        by_cases ha : isSpecial a = true
        · rw [if_pos ha] at h; injection h with h1 _; rw [← h1]; decide
        · rw [if_neg ha] at h
          simp only [List.singleton_append] at h
          injection h with h1 _; rw [← h1]
          exact (nonspecial_facts a (by simpa using ha)).2.2.2.2

theorem t3_head_ne_star (g : List Char) (c : Char) (r : List Char)
    (h : t3 g = c :: r) : c ≠ '*' := by
  match g with
  | [] => simp [t3] at h
  | [a] =>
    rw [t3] at h
    split at h
    · injection h with h1 _; rw [← h1]; decide
    · split at h
      · injection h with h1 _; rw [← h1]; decide
      · unfold qmChunk at h
        by_cases ha : isSpecial a = true
        · rw [if_pos ha] at h; injection h with h1 _; rw [← h1]; decide
        · rw [if_neg ha] at h; injection h with h1 _; rw [← h1]
          exact (nonspecial_facts a (by simpa using ha)).2.2.2.1
  | a :: b :: g2 =>
    rw [t3] at h
    split at h
    · injection h with h1 _; rw [← h1]; decide
    · split at h
      · injection h with h1 _; rw [← h1]; decide
      · split at h
        · injection h with h1 _; rw [← h1]; decide
        · unfold qmChunk at h
          by_cases ha : isSpecial a = true
          · rw [if_pos ha] at h; injection h with h1 _; rw [← h1]; decide
          · rw [if_neg ha] at h
            simp only [List.singleton_append] at h
            injection h with h1 _; rw [← h1]
            exact (nonspecial_facts a (by simpa using ha)).2.2.2.1

/-- The `\*\*` to `.*` pass on a quoted glob is the single-pass `t1`:
quoting escapes every star, so the four-character target occurs exactly
at consecutive pairs of stars of the original glob. -/
theorem replSS_quoteMeta (g : List Char) : replSS (quoteMeta g) = t1 g := by
  induction g using t1.induct with
  | case1 => rfl
  | case2 c =>
    rw [t1, quoteMeta, quoteMeta]
    simp only [List.append_nil]
    unfold qmChunk
    by_cases hs : isSpecial c = true
    · rw [if_pos hs]
      rw [replSS_cons '\\' [c] (by rintro ⟨-, r, hr⟩; simp at hr)]
      rw [replSS_cons c [] (by rintro ⟨-, r, hr⟩; simp at hr)]
      rfl
    · rw [if_neg hs]
      rw [replSS_cons c [] (by rintro ⟨-, r, hr⟩; simp at hr)]
      rfl
  | case3 c1 c2 g hc ih =>
    obtain ⟨h1, h2⟩ := hc
    rw [h1, h2, t1, if_pos ⟨rfl, rfl⟩, quoteMeta, quoteMeta, qmChunk_star]
    simp only [List.cons_append, List.nil_append]
    rw [replSS_eq1, ih]
  | case4 c1 c2 g hc ih =>
    rw [t1, if_neg hc, quoteMeta]
    by_cases hs : isSpecial c1 = true
    · by_cases h1 : c1 = '*'
      · have h2 : c2 ≠ '*' := fun h2 => hc ⟨h1, h2⟩
        rw [h1]
        rw [qmChunk_star]
        simp only [List.cons_append, List.nil_append]
        rw [replSS_cons '\\' ('*' :: quoteMeta (c2 :: g)) ?side1]
        rw [replSS_cons '*' (quoteMeta (c2 :: g)) (by rintro ⟨hx, -⟩; exact absurd hx (by decide))]
        rw [ih]
        case side1 =>
          rintro ⟨-, r, hr⟩
          injection hr with _ hr2
          exact qm_ne_bsStar (c2 :: g) (fun g2 hg2 => h2 (by injection hg2)) r hr2
      · unfold qmChunk
        rw [if_pos hs]
        simp only [List.cons_append, List.nil_append]
        rw [replSS_cons '\\' (c1 :: quoteMeta (c2 :: g))
              (by rintro ⟨-, r, hr⟩; injection hr with hr1 _; exact h1 hr1)]
        rw [replSS_cons c1 (quoteMeta (c2 :: g)) ?side2]
        rw [ih]
        case side2 =>
          rintro ⟨-, r, hr⟩
          exact qm_head_ne_star (c2 :: g) '*' ('\\' :: '*' :: r) hr rfl
    · unfold qmChunk
      rw [if_neg hs]
      simp only [List.singleton_append]
      rw [replSS_cons c1 (quoteMeta (c2 :: g))
            (by rintro ⟨hx, -⟩; exact (nonspecial_facts c1 (by simpa using hs)).1 hx)]
      rw [ih]

/-- The `\*` to `[^/]*` pass after `t1` is the single-pass `t2`: after
the double-star pass, `\*` occurs exactly at the remaining single stars
of the original glob. -/
theorem replS_t1 (g : List Char) : replS (t1 g) = t2 g := by
  induction g using t2.induct with
  | case1 => rfl
  | case2 =>
    rw [t1, t2, if_pos rfl, qmChunk_star, replS_eq1]
    rfl
  | case3 c hq =>
    rw [t1, t2, if_neg hq]
    unfold qmChunk
    by_cases hs : isSpecial c = true
    · rw [if_pos hs]
      rw [replS_cons '\\' [c] (by rintro ⟨-, r, hr⟩; injection hr with hr1 _; exact hq hr1)]
      rw [replS_cons c [] (by rintro ⟨-, r, hr⟩; simp at hr)]
      rfl
    · rw [if_neg hs]
      rw [replS_cons c [] (by rintro ⟨-, r, hr⟩; simp at hr)]
      rfl
  | case4 c1 c2 g hc ih =>
    obtain ⟨h1, h2⟩ := hc
    rw [h1, h2, t2, if_pos ⟨rfl, rfl⟩, t1, if_pos ⟨rfl, rfl⟩]
    rw [replS_cons '.' ('*' :: t1 g) (by rintro ⟨hx, -⟩; exact absurd hx (by decide))]
    rw [replS_cons '*' (t1 g) (by rintro ⟨hx, -⟩; exact absurd hx (by decide))]
    rw [ih]
  | case5 c2 g hc ih =>
    rw [t2, if_neg hc, if_pos rfl, t1, if_neg hc, qmChunk_star]
    simp only [List.cons_append, List.nil_append]
    rw [replS_eq1, ih]
  | case6 c1 c2 g hc h1 ih =>
    rw [t2, if_neg hc, if_neg h1, t1, if_neg hc]
    by_cases hs : isSpecial c1 = true
    · unfold qmChunk
      rw [if_pos hs]
      simp only [List.cons_append, List.nil_append]
      rw [replS_cons '\\' (c1 :: t1 (c2 :: g))
            (by rintro ⟨-, r, hr⟩; injection hr with hr1 _; exact h1 hr1)]
      rw [replS_cons c1 (t1 (c2 :: g)) ?side1]
      rw [ih]
      case side1 =>
        rintro ⟨-, r, hr⟩
        exact t1_head_ne_star (c2 :: g) '*' r hr rfl
    · unfold qmChunk
      rw [if_neg hs]
      simp only [List.singleton_append]
      rw [replS_cons c1 (t1 (c2 :: g))
            (by rintro ⟨hx, -⟩; exact (nonspecial_facts c1 (by simpa using hs)).1 hx)]
      rw [ih]

/-- The `\?` to `.` pass after `t2` is the single-pass `t3`: the only
remaining `\?` occurrences are the question marks of the original glob. -/
theorem replQ_t2 (g : List Char) : replQ (t2 g) = t3 g := by
  induction g using t3.induct with
  | case1 => rfl
  | case2 =>
    rw [t2, if_pos rfl, t3, if_pos rfl]
    rw [replQ_cons '[' _ (by rintro ⟨hx, -⟩; exact absurd hx (by decide))]
    rw [replQ_cons '^' _ (by rintro ⟨hx, -⟩; exact absurd hx (by decide))]
    rw [replQ_cons '/' _ (by rintro ⟨hx, -⟩; exact absurd hx (by decide))]
    rw [replQ_cons ']' _ (by rintro ⟨hx, -⟩; exact absurd hx (by decide))]
    rw [replQ_cons '*' _ (by rintro ⟨hx, -⟩; exact absurd hx (by decide))]
    rfl
  | case3 hq =>
    rw [t2, if_neg (by decide), t3, if_neg (by decide), if_pos rfl]
    unfold qmChunk
    rw [if_pos (by decide)]
    rw [replQ_eq1]
    rfl
  | case4 c h1 h2 =>
    rw [t2, if_neg h1, t3, if_neg h1, if_neg h2]
    unfold qmChunk
    by_cases hs : isSpecial c = true
    · rw [if_pos hs]
      rw [replQ_cons '\\' [c] (by rintro ⟨-, r, hr⟩; injection hr with hr1 _; exact h2 hr1)]
      rw [replQ_cons c [] (by rintro ⟨-, r, hr⟩; simp at hr)]
      rfl
    · rw [if_neg hs]
      rw [replQ_cons c [] (by rintro ⟨-, r, hr⟩; simp at hr)]
      rfl
  | case5 c1 c2 g hc ih =>
    obtain ⟨h1, h2⟩ := hc
    rw [h1, h2, t3, if_pos ⟨rfl, rfl⟩, t2, if_pos ⟨rfl, rfl⟩]
    rw [replQ_cons '.' ('*' :: t2 g) (by rintro ⟨hx, -⟩; exact absurd hx (by decide))]
    rw [replQ_cons '*' (t2 g) (by rintro ⟨hx, -⟩; exact absurd hx (by decide))]
    rw [ih]
  | case6 c2 g hc ih =>
    rw [t3, if_neg hc, if_pos rfl, t2, if_neg hc, if_pos rfl]
    rw [replQ_cons '[' _ (by rintro ⟨hx, -⟩; exact absurd hx (by decide))]
    rw [replQ_cons '^' _ (by rintro ⟨hx, -⟩; exact absurd hx (by decide))]
    rw [replQ_cons '/' _ (by rintro ⟨hx, -⟩; exact absurd hx (by decide))]
    rw [replQ_cons ']' _ (by rintro ⟨hx, -⟩; exact absurd hx (by decide))]
    rw [replQ_cons '*' _ (by rintro ⟨hx, -⟩; exact absurd hx (by decide))]
    rw [ih]
  | case7 c2 g hc hq ih =>
    rw [t3, if_neg hc, if_neg (by decide), if_pos rfl, t2, if_neg hc, if_neg (by decide)]
    unfold qmChunk
    rw [if_pos (by decide)]
    simp only [List.cons_append, List.nil_append]
    rw [replQ_eq1, ih]
  | case8 c1 c2 g hc h1 h2 ih =>
    rw [t3, if_neg hc, if_neg h1, if_neg h2, t2, if_neg hc, if_neg h1]
    by_cases hs : isSpecial c1 = true
    · unfold qmChunk
      rw [if_pos hs]
      simp only [List.cons_append, List.nil_append]
      rw [replQ_cons '\\' (c1 :: t2 (c2 :: g))
            (by rintro ⟨-, r, hr⟩; injection hr with hr1 _; exact h2 hr1)]
      rw [replQ_cons c1 (t2 (c2 :: g)) ?side1]
      rw [ih]
      case side1 =>
        rintro ⟨-, r, hr⟩
        exact t2_head_ne_qm (c2 :: g) '?' r hr rfl
    · unfold qmChunk
      rw [if_neg hs]
      simp only [List.singleton_append]
      rw [replQ_cons c1 (t2 (c2 :: g))
            (by rintro ⟨hx, -⟩; exact (nonspecial_facts c1 (by simpa using hs)).1 hx)]
      rw [ih]

theorem t3_cons_ne_nil (c : Char) (g : List Char) : t3 (c :: g) ≠ [] := by
  match g with
  | [] =>
    rw [t3]
    split_ifs with h1 h2
    · simp
    · simp
    · unfold qmChunk; split_ifs <;> simp
  | d :: g2 =>
    rw [t3]
    split_ifs with h1 h2 h3
    · simp
    · simp
    · simp
    · unfold qmChunk; split_ifs <;> simp

theorem pb_esc (c2 : Char) (rest : List Char) :
    parseBody ('\\' :: c2 :: rest) = (parseBody rest).map (fun ts => RTok.lit c2 :: ts) := by
  rw [parseBody.eq_def]
  simp only
  rw [if_pos (by simp)]

theorem pb_dotStar (X : List Char) :
    parseBody ('.' :: '*' :: X) = (parseBody X).map (fun ts => RTok.dotStar :: ts) := by
  rw [parseBody.eq_def]
  simp only
  rw [if_neg (by decide), if_pos (by simp)]

theorem pb_class (X : List Char) :
    parseBody ('[' :: '^' :: '/' :: ']' :: '*' :: X) =
      (parseBody X).map (fun ts => RTok.nonSlashStar :: ts) := by
  rw [parseBody.eq_def]
  simp only
  rw [if_neg (by decide), if_neg (by decide), if_pos (by simp), if_pos (by simp)]

theorem pb_dot (y : Char) (ys : List Char) (h : y ≠ '*') :
    parseBody ('.' :: y :: ys) = (parseBody (y :: ys)).map (fun ts => RTok.dot :: ts) := by
  rw [parseBody.eq_def]
  simp only
  rw [if_neg (by decide), if_neg (by rintro ⟨-, hx⟩; exact h hx), if_neg (by decide),
      if_pos (by simp)]

theorem pb_plain (c : Char) (y : Char) (ys : List Char) (hs : isSpecial c = false) :
    parseBody (c :: y :: ys) = (parseBody (y :: ys)).map (fun ts => RTok.lit c :: ts) := by
  have h1 : c ≠ '\\' := by intro h; rw [h] at hs; simp [isSpecial] at hs
  have h2 : c ≠ '.' := by intro h; rw [h] at hs; simp [isSpecial] at hs
  have h3 : c ≠ '[' := by intro h; rw [h] at hs; simp [isSpecial] at hs
  rw [parseBody.eq_def]
  simp only
  rw [if_neg h1, if_neg (by rintro ⟨hx, -⟩; exact h2 hx), if_neg h3, if_neg h2,
      if_neg (by simp [hs])]

theorem pb_single (c : Char) (hs : isSpecial c = false) :
    parseBody [c] = some [RTok.lit c] := by
  have h2 : c ≠ '.' := by intro h; rw [h] at hs; simp [isSpecial] at hs
  rw [parseBody.eq_def]
  simp only
  rw [if_neg h2, if_neg (by simp [hs])]

/-- The generated regular-expression body always parses, to exactly the
token list `globTokens` of the original glob. -/
theorem parseBody_t3 (g : List Char) : parseBody (t3 g) = some (globTokens g) := by
  induction g using t3.induct with
  | case1 => rfl
  | case2 => decide
  | case3 hq => decide
  | case4 c h1 h2 =>
    rw [t3, if_neg h1, if_neg h2, globTokens, if_neg h1, if_neg h2]
    by_cases hs : isSpecial c = true
    · unfold qmChunk
      rw [if_pos hs]
      rw [show ('\\' :: [c] : List Char) = '\\' :: c :: [] from rfl, pb_esc]
      rfl
    · unfold qmChunk
      rw [if_neg hs]
      exact pb_single c (by simpa using hs)
  | case5 c1 c2 g hc ih =>
    obtain ⟨h1, h2⟩ := hc
    rw [h1, h2, t3, if_pos ⟨rfl, rfl⟩, globTokens, if_pos ⟨rfl, rfl⟩]
    rw [pb_dotStar, ih]
    rfl
  | case6 c2 g hc ih =>
    rw [t3, if_neg hc, if_pos rfl, globTokens, if_neg hc, if_pos rfl]
    rw [pb_class, ih]
    rfl
  | case7 c2 g hc hq ih =>
    rw [t3, if_neg hc, if_neg (by decide), if_pos rfl, globTokens,
        if_neg hc, if_neg (by decide), if_pos rfl]
    obtain ⟨y, ys, hy⟩ : ∃ y ys, t3 (c2 :: g) = y :: ys := by
      match hx : t3 (c2 :: g) with
      | [] => exact absurd hx (t3_cons_ne_nil c2 g)
      | y :: ys => exact ⟨y, ys, rfl⟩
    rw [hy, pb_dot y ys (t3_head_ne_star (c2 :: g) y ys hy), ← hy, ih]
    rfl
  | case8 c1 c2 g hc h1 h2 ih =>
    rw [t3, if_neg hc, if_neg h1, if_neg h2, globTokens, if_neg hc, if_neg h1, if_neg h2]
    obtain ⟨y, ys, hy⟩ : ∃ y ys, t3 (c2 :: g) = y :: ys := by
      match hx : t3 (c2 :: g) with
      | [] => exact absurd hx (t3_cons_ne_nil c2 g)
      | y :: ys => exact ⟨y, ys, rfl⟩
    by_cases hs : isSpecial c1 = true
    · unfold qmChunk
      rw [if_pos hs]
      simp only [List.cons_append, List.nil_append]
      rw [pb_esc, ih]
      rfl
    · unfold qmChunk
      rw [if_neg hs]
      simp only [List.singleton_append]
      rw [hy, pb_plain c1 y ys (by simpa using hs), ← hy, ih]
      rfl

theorem stripAnchors_anchored (X : List Char) :
    stripAnchors ('^' :: X ++ ['$']) = some X := by
  rw [List.cons_append, stripAnchors.eq_def]
  simp only
  rw [List.getLast?_concat, if_pos rfl, List.dropLast_concat]

theorem compileOne_ok (g : String) :
    compileOne g = Except.ok (globTokens (cleanSlash g.toList)) := by
  have hbody : replQ (replS (replSS (quoteMeta (cleanSlash g.toList)))) =
      t3 (cleanSlash g.toList) := by
    rw [replSS_quoteMeta, replS_t1, replQ_t2]
  simp only [compileOne, globToRegex]
  rw [hbody, stripAnchors_anchored]
  simp only
  rw [parseBody_t3]

theorem Compile_ok (root : List Char) (patterns : List String) :
    Compile root patterns =
      Except.ok (patterns.map (fun g => globTokens (cleanSlash g.toList))) := by
  induction patterns with
  | nil => rfl
  | cons g gs ih =>
    rw [Compile, compileOne_ok g, ih]
    rfl

/-- Claim C3 is refuted at the input `c.tmp`: the compiled pattern
`**/*.tmp` translates to the anchored expression `^.*/[^/]*\.tmp$`,
whose literal slash is mandatory, so the slash-free path `c.tmp` does
not match, while the claim asserts that it does. -/
theorem c3_counterexample : matchGlob "**/*.tmp" "c.tmp" = false := by decide

/-- Claim C3 (amended): for the compiled predicates, `**/*.tmp` matches
`a/b/c.tmp` but does not match the bare `c.tmp` (the slash following
`**` remains a mandatory literal) and does not match `c.tmpx`;
`cache/**` matches `cache/x` and `cache/x/y` and does not match
`cachex/y`; `**` on its own translates to `.*`, matching any characters
including the path separator. -/
theorem c3_glob_roundtrip :
    matchGlob "**/*.tmp" "a/b/c.tmp" = true ∧
    matchGlob "**/*.tmp" "c.tmp" = false ∧
    matchGlob "**/*.tmp" "c.tmpx" = false ∧
    matchGlob "cache/**" "cache/x" = true ∧
    matchGlob "cache/**" "cache/x/y" = true ∧
    matchGlob "cache/**" "cachex/y" = false ∧
    matchGlob "**" "a/b/c" = true := by decide

/-- Claim C10: `ignore.Compile` never returns an error — every
metacharacter is quoted by `globToRegex` before the glob substitutions
are applied, so the generated expression always compiles — and the
result has exactly one compiled predicate per input pattern, in order. -/
theorem c10_compile_never_errors (root : List Char) (patterns : List String) :
    Compile root patterns =
      Except.ok (patterns.map (fun g => globTokens (cleanSlash g.toList))) ∧
    (patterns.map (fun g => globTokens (cleanSlash g.toList))).length = patterns.length := by
  exact ⟨Compile_ok root patterns, List.length_map patterns _⟩

theorem perm_any {α : Type} {l1 l2 : List α} (h : l1.Perm l2) (f : α → Bool) :
    l1.any f = l2.any f := by
  induction h with
  | nil => rfl
  | cons x h ih => simp only [List.any_cons, ih]
  | swap x y l =>
    simp only [List.any_cons]
    rw [← Bool.or_assoc, Bool.or_comm (f y) (f x), Bool.or_assoc]
  | trans h1 h2 ih1 ih2 => rw [ih1, ih2]

/-- Claim C9: matching a relative path against a compiled ignore set is
deterministic (the model is a pure function, so two evaluations with the
same inputs are definitionally equal) and order-independent: permuting
the pattern list does not change the verdict, since `Match` holds iff
any single compiled pattern matches. -/
theorem c9_match_det_order_independent (P : String) (root : List Char)
    (S T : List String) (h : S.Perm T) :
    matchCompiled P root S = matchCompiled P root S ∧
    matchCompiled P root T = matchCompiled P root S := by
  refine ⟨rfl, ?_⟩
  unfold matchCompiled
  rw [Compile_ok, Compile_ok]
  simp only
  unfold Match
  exact perm_any ((h.map (fun g => globTokens (cleanSlash g.toList))).symm) _

/-- Witness for C9 at a concrete permutation. -/
theorem c9_witness :
    matchCompiled "a" [] ["a", "b"] = matchCompiled "a" [] ["a", "b"] ∧
    matchCompiled "a" [] ["b", "a"] = matchCompiled "a" [] ["a", "b"] :=
  c9_match_det_order_independent "a" [] ["a", "b"] ["b", "a"]
    (List.Perm.swap "b" "a" [])

theorem runBurst_aux (w : Nat) (ts : List Nat) : ∀ t : Nat,
    List.Chain (fun a b => a ≤ b ∧ b < a + w) t ts →
    runBurst w (some (t + w)) ts =
      [("debounce", (t :: ts).getLast (List.cons_ne_nil t ts) + w)] := by
  induction ts with
  | nil => intro t _; rfl
  | cons u rest ih =>
    intro t hch
    rw [List.chain_cons] at hch
    obtain ⟨⟨h1, h2⟩, hch2⟩ := hch
    rw [runBurst]
    rw [if_neg (by omega)]
    have hr : resetDebounce w u (some (t + w)) = some (u + w) := rfl
    rw [hr, ih u hch2]
    rw [List.getLast_cons (List.cons_ne_nil u rest)]

/-- Claim C2: for a burst of events each arriving strictly within one
debounce window of its predecessor, the debounce machinery fires exactly
one synchronization tagged "debounce", at exactly one window after the
last event of the burst (hence no earlier than that); the timer state is
a single optional deadline, and `resetDebounce` on a pending timer moves
that deadline rather than creating a second timer. -/
theorem c2_debounce_coalescing (w : Nat) (t : Nat) (ts : List Nat)
    (hch : List.Chain (fun a b => a ≤ b ∧ b < a + w) t ts) :
    runBurst w none (t :: ts) =
      [("debounce", (t :: ts).getLast (List.cons_ne_nil t ts) + w)] ∧
    (runBurst w none (t :: ts)).length = 1 ∧
    (∀ p ∈ runBurst w none (t :: ts),
        p.1 = "debounce" ∧ (t :: ts).getLast (List.cons_ne_nil t ts) + w ≤ p.2) ∧
    (∀ now d, resetDebounce w now (some d) = some (now + w)) := by
  have hmain : runBurst w none (t :: ts) =
      [("debounce", (t :: ts).getLast (List.cons_ne_nil t ts) + w)] := by
    rw [runBurst]
    exact runBurst_aux w ts t hch
  refine ⟨hmain, by rw [hmain]; rfl, ?_, fun now d => rfl⟩
  intro p hp
  rw [hmain] at hp
  rcases List.mem_singleton.mp hp with h
  rw [h]
  exact ⟨rfl, le_refl _⟩

/-- Witness for C2 on the burst 0, 1, 2 with window 3. -/
theorem c2_witness :
    runBurst 3 none (0 :: [1, 2]) =
      [("debounce", (0 :: [1, 2]).getLast (List.cons_ne_nil 0 [1, 2]) + 3)] :=
  (c2_debounce_coalescing 3 0 [1, 2]
    (List.Chain.cons (by omega) (List.Chain.cons (by omega) List.Chain.nil))).1

/-- Claim C4: for every trigger reason, `syncOnce` invokes the transfer
tool once with the rule's expanded source root as source, the rule's
destination, deletion enabled, and the rule's compiled ignore set; the
invocation does not depend on the reason string or on the configured
directions list. -/
theorem c4_sync_invocation :
    (∀ (rr : RuleRunner) (reason : String),
        syncOnce rr reason = RSync rr.srcRoot rr.rule.dst true rr.ign) ∧
    (∀ (rr : RuleRunner) (reasonA reasonB : String),
        syncOnce rr reasonA = syncOnce rr reasonB) ∧
    (∀ (rr : RuleRunner) (reason : String) (ds : List SyncDirection),
        syncOnce { rr with rule := { rr.rule with directions := ds } } reason =
          syncOnce rr reason) ∧
    (∀ (home : List Char) (r : SyncRule) (reason : String),
        (newRuleRunner home r).map (fun rr => syncOnce rr reason) =
          (Compile (Expand home r.src.toList) r.ignore).map
            (fun ign => RSync (Expand home r.src.toList) r.dst true ign)) := by
  refine ⟨fun rr reason => rfl, fun rr ra rb => rfl, fun rr reason ds => rfl, ?_⟩
  intro home r reason
  unfold newRuleRunner
  rw [Compile_ok]
  rfl

theorem containsDir_iff (l : List SyncDirection) (v : SyncDirection) :
    containsDir l v = true ↔ v ∈ l := by
  induction l with
  | nil => simp [containsDir]
  | cons d rest ih =>
    rw [containsDir]
    by_cases h : d = v
    · rw [if_pos h, h]
      simp
    · rw [if_neg h, ih]
      constructor
      · intro hm; exact List.mem_cons_of_mem d hm
      · intro hm
        rcases List.mem_cons.mp hm with h1 | h1
        · exact absurd h1.symm h
        · exact h1

/-- Claim C5: the poll ticker exists iff the rule's directions contain
`remote_to_local` or `full`, and when it exists it fires at the
configured remote-poll window; a `[local_to_remote]` rule never starts
one, while `[full]` and `[remote_to_local]` rules always do. -/
theorem c5_poll_ticker :
    (∀ r : SyncRule,
        (pollTicker r).isSome = true ↔
          (SyncDirection.remoteToLocal ∈ r.directions ∨
           SyncDirection.full ∈ r.directions)) ∧
    (∀ r : SyncRule,
        pollTicker { r with directions := [SyncDirection.localToRemote] } = none) ∧
    (∀ r : SyncRule,
        pollTicker { r with directions := [SyncDirection.full] } =
          some r.remotePollWindow) ∧
    (∀ r : SyncRule,
        pollTicker { r with directions := [SyncDirection.remoteToLocal] } =
          some r.remotePollWindow) := by
  refine ⟨?_, fun r => rfl, fun r => rfl, fun r => rfl⟩
  intro r
  have key : (containsDir r.directions SyncDirection.remoteToLocal ||
      containsDir r.directions SyncDirection.full) = true ↔
      (SyncDirection.remoteToLocal ∈ r.directions ∨
       SyncDirection.full ∈ r.directions) := by
    rw [Bool.or_eq_true, containsDir_iff, containsDir_iff]
  rw [pollTicker]
  by_cases h : (containsDir r.directions SyncDirection.remoteToLocal ||
      containsDir r.directions SyncDirection.full) = true
  · rw [if_pos h]
    simpa using key.mp h
  · rw [if_neg h]
    simp only [Option.isSome_none, Bool.false_eq_true, false_iff]
    intro hR
    exact h (key.mpr hR)

/-- Claim C6: the startup loop skips disabled rules entirely, constructs
one runner per enabled rule (the successful result has exactly one entry
per enabled rule), and fails fast: an error result is the construction
error of some enabled rule in the list.  `StartAll` is this loop run
with the real `newRuleRunner` constructor. -/
theorem c6_startall (mk : SyncRule → Except String RuleRunner) (home : List Char)
    (rules : List SyncRule) :
    (∀ l, startAllWith mk rules = Except.ok l →
        l.length = (rules.filter (fun r => r.enabled)).length) ∧
    (∀ e, startAllWith mk rules = Except.error e →
        ∃ r, r ∈ rules ∧ r.enabled = true ∧ mk r = Except.error e) ∧
    (∀ r rest, rules = r :: rest → r.enabled = false →
        startAllWith mk rules = startAllWith mk rest) ∧
    StartAll home rules = startAllWith (newRuleRunner home) rules := by
  refine ⟨?_, ?_, ?_, rfl⟩
  · induction rules with
    | nil =>
      intro l h
      rw [startAllWith] at h
      injection h with h1
      rw [← h1]
      rfl
    | cons r rest ih =>
      intro l h
      rw [startAllWith] at h
      by_cases he : r.enabled
      · rw [if_pos he] at h
        cases hmk : mk r with
        | error e => rw [hmk] at h; exact absurd h (by simp)
        | ok rr =>
          rw [hmk] at h
          cases hrest : startAllWith mk rest with
          | error e => rw [hrest] at h; exact absurd h (by simp)
          | ok l2 =>
            rw [hrest] at h
            injection h with h1
            rw [← h1, List.filter_cons_of_pos (by simpa using he), List.length_cons,
                List.length_cons, ih l2 hrest]
      · rw [if_neg he] at h
        rw [List.filter_cons_of_neg (by simpa using he)]
        exact ih l h
  · induction rules with
    | nil =>
      intro e h
      rw [startAllWith] at h
      exact absurd h (by simp)
    | cons r rest ih =>
      intro e h
      rw [startAllWith] at h
      by_cases he : r.enabled
      · rw [if_pos he] at h
        cases hmk : mk r with
        | error e2 =>
          rw [hmk] at h
          injection h with h1
          exact ⟨r, List.mem_cons_self r rest, (by simpa using he), by rw [hmk, h1]⟩
        | ok rr =>
          rw [hmk] at h
          cases hrest : startAllWith mk rest with
          | error e2 =>
            rw [hrest] at h
            injection h with h1
            obtain ⟨r2, hr2, hen2, hmk2⟩ := ih e2 hrest
            exact ⟨r2, List.mem_cons_of_mem r hr2, hen2, by rw [hmk2, h1]⟩
          | ok l2 => rw [hrest] at h; exact absurd h (by simp)
      · rw [if_neg he] at h
        obtain ⟨r2, hr2, hen2, hmk2⟩ := ih e h
        exact ⟨r2, List.mem_cons_of_mem r hr2, hen2, hmk2⟩
  · rintro r rest rfl he
    rw [startAllWith, if_neg (by simp [he])]

/-- Witness for C6: two enabled rules and one disabled rule yield
exactly two runners with an all-succeeding constructor, and a
constructor failing on an enabled rule makes the whole startup fail with
that rule's error. -/
theorem c6_witness :
    ([wRunner, wRunner] : List RuleRunner).length =
      ([wRuleA, wRuleB, wRuleC].filter (fun r => r.enabled)).length ∧
    ∃ r, r ∈ [wRuleA, wRuleB, wRuleC] ∧ r.enabled = true ∧
        wMkBad r = Except.error "boom" :=
  ⟨(c6_startall wMkOk [] [wRuleA, wRuleB, wRuleC]).1 [wRunner, wRunner] (by rfl),
   (c6_startall wMkBad [] [wRuleA, wRuleB, wRuleC]).2.1 "boom" (by rfl)⟩

/-- Claim C7 concerns the debounce default: the configuration decoder
applies no default, so a rule whose YAML omits `debounce_window` keeps
the Go zero value 0, and `resetDebounce` then arms a timer that is
already due (deadline `now`), not one due three seconds later — the
code contradicts the README's documented 3-second default. -/
theorem c7_debounce_zero_not_three_seconds :
    ruleNoDebounce.debounceWindow = 0 ∧
    defaultSyncRule.debounceWindow = 0 ∧
    (∀ now : Nat, resetDebounce ruleNoDebounce.debounceWindow now none = some now) ∧
    resetDebounce ruleNoDebounce.debounceWindow 10 none ≠ some 13 := by
  refine ⟨rfl, rfl, fun now => rfl, by decide⟩

/-- Claim C8 is refuted at the input "fatal": `logrus.ParseLevel` also
recognizes `panic`, `fatal` and `warning`, so the unlisted string
"fatal" does not fall back to the info level as the claim requires. -/
theorem c8_counterexample :
    loggingInit "fatal" = LogLevel.fatal ∧ loggingInit "fatal" ≠ LogLevel.info := by
  decide

/-- Claim C8 (amended): the level string is parsed case-insensitively
under Go's Unicode lowercasing (so for instance `PANİC`, whose U+0130
lowers to an ASCII `i`, is recognized as the panic level); the
recognized values are the logrus levels `panic`, `fatal`, `error`,
`warn`, `warning`, `info`, `debug`, `trace`, and every string whose
lowercased form is outside that set makes the configured level default
to info. -/
theorem c8_level_parsing (s : String)
    (h : goToLower s ∉ (["panic", "fatal", "error", "warn", "warning",
        "info", "debug", "trace"] : List String)) :
    loggingInit s = LogLevel.info ∧
    loggingInit "TRACE" = LogLevel.trace ∧
    loggingInit "Debug" = LogLevel.debug ∧
    loggingInit "INFO" = LogLevel.info ∧
    loggingInit "Warn" = LogLevel.warn ∧
    loggingInit "ERROR" = LogLevel.error ∧
    loggingInit "PANIC" = LogLevel.panic ∧
    loggingInit "Warning" = LogLevel.warn ∧
    loggingInit (String.mk ['P', 'A', 'N', Char.ofNat 0x0130, 'C']) = LogLevel.panic ∧
    loggingInit (String.mk ['W', 'A', 'R', 'N', Char.ofNat 0x0130, 'N', 'G']) =
      LogLevel.warn := by
  refine ⟨?_, by decide, by decide, by decide, by decide, by decide, by decide, by decide,
    by decide, by decide⟩
  simp only [List.mem_cons, List.not_mem_nil, or_false, not_or] at h
  obtain ⟨h1, h2, h3, h4, h5, h6, h7, h8⟩ := h
  unfold loggingInit parseLevel
  rw [if_neg h1, if_neg h2, if_neg h3, if_neg h4, if_neg h5, if_neg h6, if_neg h7,
      if_neg h8]

/-- Witness for C8 (amended) at the unrecognized string "bogus". -/
theorem c8_witness :
    loggingInit "bogus" = LogLevel.info ∧
    loggingInit "TRACE" = LogLevel.trace ∧
    loggingInit "Debug" = LogLevel.debug ∧
    loggingInit "INFO" = LogLevel.info ∧
    loggingInit "Warn" = LogLevel.warn ∧
    loggingInit "ERROR" = LogLevel.error ∧
    loggingInit "PANIC" = LogLevel.panic ∧
    loggingInit "Warning" = LogLevel.warn ∧
    loggingInit (String.mk ['P', 'A', 'N', Char.ofNat 0x0130, 'C']) = LogLevel.panic ∧
    loggingInit (String.mk ['W', 'A', 'R', 'N', Char.ofNat 0x0130, 'N', 'G']) =
      LogLevel.warn :=
  c8_level_parsing "bogus" (by decide)
